import Mathlib

/-!
Verification model of `IntegrationTestEnvironment` (src/src/lib.rs).

The Rust library keeps an in-memory specification store
`entries : HashMap<PathBuf, Option<String>>` (`Some content` = regular file,
`None` = directory marker), materializes it inside a temporary workspace
directory (`setup`), and offers inspection (`tree`, `read_file`), permission
adjustment (`set_exec_permission`) and a command factory (`command`).

We model a path relative to the workspace root as its list of components,
and the workspace's on-disk state as an association list from relative path
to node. The root of the workspace is the empty relative path `[]`, which is
always a directory. Text content is modelled as `String` (the Rust code only
ever writes valid UTF-8, since contents originate from `&str`).
-/

/-- A path relative to the workspace root, as its list of components.
`[]` is the workspace root itself. -/
abbrev RelPath := List String

/-- A filesystem node: `some c` is a regular file with text `c`; `none` is a
directory. This mirrors the store's value type `Option<String>`. -/
abbrev Node := Option String

/-- The on-disk state of the workspace: an association list from relative
path to node. Reachable states are strictly sorted by path (`fsSorted`),
which makes equality of states canonical. -/
abbrev FS := List (RelPath × Node)

/-! ### Path order

`tree()` sorts `Vec<PathBuf>` with `PathBuf`'s `Ord`: lexicographic over
components, each component compared byte-wise. UTF-8 byte order agrees with
scalar-value order, so we compare components by their characters' scalar
values. -/

/-- Strict byte-wise order on component text. -/
def charsLt : List Char → List Char → Bool
  | [], [] => false
  | [], _ :: _ => true
  | _ :: _, [] => false
  | a :: as, b :: bs =>
    if a.toNat < b.toNat then true
    else if b.toNat < a.toNat then false
    else charsLt as bs

/-- Strict lexicographic order on relative paths, component-wise. -/
def pathLtB : RelPath → RelPath → Bool
  | [], [] => false
  | [], _ :: _ => true
  | _ :: _, [] => false
  | a :: as, b :: bs =>
    if charsLt a.data b.data then true
    else if charsLt b.data a.data then false
    else pathLtB as bs

/-- `p` sorts strictly before `q`. -/
def pathLt (p q : RelPath) : Prop := pathLtB p q = true

theorem charsLt_irrefl : ∀ l : List Char, charsLt l l = false
  | [] => rfl
  | a :: as => by simp [charsLt, charsLt_irrefl as]

theorem charsLt_trans : ∀ {l₁ l₂ l₃ : List Char},
    charsLt l₁ l₂ = true → charsLt l₂ l₃ = true → charsLt l₁ l₃ = true
  | [], [], _, h₁, _ => by simp [charsLt] at h₁
  | [], _ :: _, [], _, h₂ => by simp [charsLt] at h₂
  | [], _ :: _, _ :: _, _, _ => rfl
  | _ :: _, [], _, h₁, _ => by simp [charsLt] at h₁
  | _ :: _, _ :: _, [], _, h₂ => by simp [charsLt] at h₂
  | a :: as, b :: bs, c :: cs, h₁, h₂ => by
    simp only [charsLt] at h₁ h₂ ⊢
    by_cases hab : a.toNat < b.toNat
    · by_cases hbc : b.toNat < c.toNat
      · rw [if_pos (Nat.lt_trans hab hbc)]
      · by_cases hcb : c.toNat < b.toNat
        · rw [if_neg hbc, if_pos hcb] at h₂
          exact absurd h₂ (by simp)
        · rw [if_pos (show a.toNat < c.toNat by omega)]
    · by_cases hba : b.toNat < a.toNat
      · rw [if_neg hab, if_pos hba] at h₁
        exact absurd h₁ (by simp)
      · by_cases hbc : b.toNat < c.toNat
        · rw [if_pos (show a.toNat < c.toNat by omega)]
        · by_cases hcb : c.toNat < b.toNat
          · rw [if_neg hbc, if_pos hcb] at h₂
            exact absurd h₂ (by simp)
          · rw [if_neg hab, if_neg hba] at h₁
            rw [if_neg hbc, if_neg hcb] at h₂
            rw [if_neg (show ¬ a.toNat < c.toNat by omega),
              if_neg (show ¬ c.toNat < a.toNat by omega)]
            exact charsLt_trans h₁ h₂

theorem charsLt_eq_of_both_false : ∀ {l₁ l₂ : List Char},
    charsLt l₁ l₂ = false → charsLt l₂ l₁ = false → l₁ = l₂
  | [], [], _, _ => rfl
  | [], _ :: _, h₁, _ => by simp [charsLt] at h₁
  | _ :: _, [], _, h₂ => by simp [charsLt] at h₂
  | a :: as, b :: bs, h₁, h₂ => by
    simp only [charsLt] at h₁ h₂
    by_cases hab : a.toNat < b.toNat
    · rw [if_pos hab] at h₁
      exact absurd h₁ (by simp)
    · by_cases hba : b.toNat < a.toNat
      · rw [if_pos hba] at h₂
        exact absurd h₂ (by simp)
      · rw [if_neg hab, if_neg hba] at h₁
        rw [if_neg hba, if_neg hab] at h₂
        have hn : a.toNat = b.toNat := by omega
        have hc : a = b := Char.ext (UInt32.toNat.inj hn)
        rw [hc, charsLt_eq_of_both_false h₁ h₂]

theorem pathLt_irrefl : ∀ p : RelPath, pathLtB p p = false
  | [] => rfl
  | a :: as => by simp [pathLtB, charsLt_irrefl, pathLt_irrefl as]

theorem pathLt_trans : ∀ {p q r : RelPath}, pathLt p q → pathLt q r → pathLt p r
  | [], [], _, h₁, _ => by simp [pathLt, pathLtB] at h₁
  | [], _ :: _, [], _, h₂ => by simp [pathLt, pathLtB] at h₂
  | [], _ :: _, _ :: _, _, _ => rfl
  | _ :: _, [], _, h₁, _ => by simp [pathLt, pathLtB] at h₁
  | _ :: _, _ :: _, [], _, h₂ => by simp [pathLt, pathLtB] at h₂
  | a :: as, b :: bs, c :: cs, h₁, h₂ => by
    simp only [pathLt, pathLtB] at h₁ h₂ ⊢
    by_cases hab : charsLt a.data b.data = true
    · by_cases hbc : charsLt b.data c.data = true
      · rw [if_pos (charsLt_trans hab hbc)]
      · by_cases hcb : charsLt c.data b.data = true
        · rw [if_neg hbc, if_pos hcb] at h₂
          exact absurd h₂ (by simp)
        · have hb : b.data = c.data := charsLt_eq_of_both_false
            (Bool.not_eq_true _ ▸ hbc) (Bool.not_eq_true _ ▸ hcb)
          rw [if_pos (show charsLt a.data c.data = true from hb ▸ hab)]
    · by_cases hba : charsLt b.data a.data = true
      · rw [if_neg hab, if_pos hba] at h₁
        exact absurd h₁ (by simp)
      · have hb : a.data = b.data := charsLt_eq_of_both_false
          (Bool.not_eq_true _ ▸ hab) (Bool.not_eq_true _ ▸ hba)
        by_cases hbc : charsLt b.data c.data = true
        · rw [if_pos (show charsLt a.data c.data = true from hb ▸ hbc)]
        · by_cases hcb : charsLt c.data b.data = true
          · rw [if_neg hbc, if_pos hcb] at h₂
            exact absurd h₂ (by simp)
          · rw [if_neg hab, if_neg hba] at h₁
            rw [if_neg hbc, if_neg hcb] at h₂
            rw [if_neg (show ¬ charsLt a.data c.data = true from hb ▸ hbc),
              if_neg (show ¬ charsLt c.data a.data = true from hb ▸ hcb)]
            exact pathLt_trans h₁ h₂

theorem pathLt_eq_of_both_false : ∀ {p q : RelPath},
    pathLtB p q = false → pathLtB q p = false → p = q
  | [], [], _, _ => rfl
  | [], _ :: _, h₁, _ => by simp [pathLtB] at h₁
  | _ :: _, [], _, h₂ => by simp [pathLtB] at h₂
  | a :: as, b :: bs, h₁, h₂ => by
    simp only [pathLtB] at h₁ h₂
    by_cases hab : charsLt a.data b.data = true
    · rw [if_pos hab] at h₁
      exact absurd h₁ (by simp)
    · by_cases hba : charsLt b.data a.data = true
      · rw [if_pos hba] at h₂
        exact absurd h₂ (by simp)
      · rw [if_neg hab, if_neg hba] at h₁
        rw [if_neg hba, if_neg hab] at h₂
        have hc : a = b := String.ext (charsLt_eq_of_both_false
          (Bool.not_eq_true _ ▸ hab) (Bool.not_eq_true _ ▸ hba))
        rw [hc, pathLt_eq_of_both_false h₁ h₂]

theorem pathLt_ne {p q : RelPath} (h : pathLt p q) : p ≠ q := by
  intro he
  rw [he, pathLt, pathLt_irrefl] at h
  exact absurd h (by simp)

theorem pathLt_asymm {p q : RelPath} (h : pathLt p q) (h' : pathLt q p) : False :=
  pathLt_ne (pathLt_trans h h') rfl

theorem pathLt_of_ne {p q : RelPath} (hne : p ≠ q) (hnlt : ¬ pathLt p q) :
    pathLt q p := by
  cases hcase : pathLtB q p with
  | false => exact absurd (pathLt_eq_of_both_false (Bool.not_eq_true _ ▸ hnlt) hcase) hne
  | true => exact hcase

/-! ### Filesystem state -/

/-- Look a path up in the filesystem state (first matching key). -/
def fsLookup : FS → RelPath → Option Node
  | [], _ => none
  | (q, n) :: rest, p => if q = p then some n else fsLookup rest p

/-- Insert (or overwrite) a node at a path, keeping the list sorted when the
input is sorted. -/
def fsInsert : FS → RelPath → Node → FS
  | [], p, n => [(p, n)]
  | (q, m) :: rest, p, n =>
    if p = q then (p, n) :: rest
    else if pathLtB p q then (p, n) :: (q, m) :: rest
    else (q, m) :: fsInsert rest p n

/-- Strictly sorted by path: the canonical representation of a filesystem. -/
abbrev fsSorted (fs : FS) : Prop := fs.Pairwise (fun a b => pathLt a.1 b.1)

/-- The empty workspace: only the root directory exists. -/
def fsEmpty : FS := [([], none)]

theorem fsLookup_insert (fs : FS) (p : RelPath) (n : Node) (q : RelPath) :
    fsLookup (fsInsert fs p n) q = if q = p then some n else fsLookup fs q := by
  induction fs with
  | nil =>
    show (if p = q then some n else fsLookup [] q) = _
    by_cases h : p = q
    · subst h; simp [fsLookup]
    · rw [if_neg h, if_neg (fun h' : q = p => h h'.symm)]
  | cons e rest ih =>
    obtain ⟨r, m⟩ := e
    simp only [fsInsert]
    by_cases hpr : p = r
    · rw [if_pos hpr]
      subst hpr
      by_cases hq : q = p
      · subst hq; simp [fsLookup]
      · simp only [fsLookup]
        rw [if_neg (fun h : p = q => hq h.symm), if_neg hq,
          if_neg (fun h : p = q => hq h.symm)]
    · rw [if_neg hpr]
      by_cases hlt : pathLtB p r = true
      · rw [if_pos hlt]
        by_cases hq : q = p
        · subst hq; simp [fsLookup]
        · show (if p = q then some n else fsLookup ((r, m) :: rest) q) = _
          rw [if_neg (fun h : p = q => hq h.symm), if_neg hq]
      · rw [if_neg hlt]
        show (if r = q then some m else fsLookup (fsInsert rest p n) q) = _
        by_cases hrq : r = q
        · rw [if_pos hrq]
          have : ¬ q = p := fun h => hpr (h ▸ hrq.symm ▸ rfl : p = r)
          rw [if_neg this]
          show some m = fsLookup ((r, m) :: rest) q
          simp [fsLookup, hrq]
        · rw [if_neg hrq, ih]
          show _ = if q = p then some n else fsLookup ((r, m) :: rest) q
          simp only [fsLookup]
          rw [if_neg hrq]

theorem mem_fsInsert {fs : FS} {p : RelPath} {n : Node} {b : RelPath × Node}
    (h : b ∈ fsInsert fs p n) : b ∈ fs ∨ b = (p, n) := by
  induction fs with
  | nil =>
    simp only [fsInsert, List.mem_singleton] at h
    exact Or.inr h
  | cons e rest ih =>
    obtain ⟨r, m⟩ := e
    simp only [fsInsert] at h
    by_cases h1 : p = r
    · rw [if_pos h1] at h
      rcases List.mem_cons.mp h with h | h
      · exact Or.inr h
      · exact Or.inl (List.mem_cons_of_mem _ h)
    · rw [if_neg h1] at h
      by_cases h2 : pathLtB p r = true
      · rw [if_pos h2] at h
        rcases List.mem_cons.mp h with h | h
        · exact Or.inr h
        · exact Or.inl h
      · rw [if_neg h2] at h
        rcases List.mem_cons.mp h with h | h
        · exact Or.inl (List.mem_cons.mpr (Or.inl h))
        · rcases ih h with h' | h'
          · exact Or.inl (List.mem_cons_of_mem _ h')
          · exact Or.inr h'

theorem fsSorted_insert {fs : FS} (hs : fsSorted fs) (p : RelPath) (n : Node) :
    fsSorted (fsInsert fs p n) := by
  induction fs with
  | nil => simp [fsInsert]
  | cons e rest ih =>
    obtain ⟨r, m⟩ := e
    obtain ⟨hr, hrest⟩ := List.pairwise_cons.mp hs
    simp only [fsInsert]
    by_cases hpr : p = r
    · rw [if_pos hpr]
      subst hpr
      exact List.pairwise_cons.mpr ⟨hr, hrest⟩
    · rw [if_neg hpr]
      by_cases hlt : pathLtB p r = true
      · rw [if_pos hlt]
        refine List.pairwise_cons.mpr ⟨?_, List.pairwise_cons.mpr ⟨hr, hrest⟩⟩
        intro b hb
        rcases List.mem_cons.mp hb with hb | hb
        · rw [hb]; exact hlt
        · exact pathLt_trans hlt (hr b hb)
      · rw [if_neg hlt]
        have hrp : pathLt r p := pathLt_of_ne hpr hlt
        refine List.pairwise_cons.mpr ⟨?_, ih hrest⟩
        intro b hb
        rcases mem_fsInsert hb with hb | hb
        · exact hr b hb
        · rw [hb]; exact hrp

theorem fsLookup_eq_none_of_forall {fs : FS} {p : RelPath}
    (h : ∀ e ∈ fs, e.1 ≠ p) : fsLookup fs p = none := by
  induction fs with
  | nil => rfl
  | cons e rest ih =>
    obtain ⟨q, n⟩ := e
    simp only [fsLookup]
    rw [if_neg (h (q, n) (List.mem_cons_self _ _))]
    exact ih fun e he => h e (List.mem_cons_of_mem _ he)

theorem fsLookup_head {q : RelPath} {n : Node} {rest : FS} :
    fsLookup ((q, n) :: rest) q = some n := by simp [fsLookup]

theorem mem_of_fsLookup {fs : FS} {p : RelPath} {n : Node}
    (h : fsLookup fs p = some n) : (p, n) ∈ fs := by
  induction fs with
  | nil => simp [fsLookup] at h
  | cons e rest ih =>
    obtain ⟨q, m⟩ := e
    simp only [fsLookup] at h
    by_cases hq : q = p
    · rw [if_pos hq] at h
      injection h with h
      rw [← hq, ← h]
      exact List.mem_cons_self _ _
    · rw [if_neg hq] at h
      exact List.mem_cons_of_mem _ (ih h)

theorem fsLookup_of_mem {fs : FS} {p : RelPath} {n : Node}
    (hs : fsSorted fs) (h : (p, n) ∈ fs) : fsLookup fs p = some n := by
  induction fs with
  | nil => simp at h
  | cons e rest ih =>
    obtain ⟨q, m⟩ := e
    have hs' := List.pairwise_cons.mp hs
    rcases List.mem_cons.mp h with h | h
    · rw [Prod.mk.injEq] at h
      simp [fsLookup, h.1.symm, h.2]
    · simp only [fsLookup]
      by_cases hq : q = p
      · have := hs'.1 _ h
        rw [hq] at this
        exact absurd rfl (pathLt_ne this)
      · rw [if_neg hq]
        exact ih hs'.2 h

/-- Two sorted filesystem states with the same lookup function are equal. -/
theorem fsExt : ∀ {fs₁ fs₂ : FS}, fsSorted fs₁ → fsSorted fs₂ →
    (∀ p, fsLookup fs₁ p = fsLookup fs₂ p) → fs₁ = fs₂
  | [], [], _, _, _ => rfl
  | [], (q, m) :: t₂, _, _, h => by
    have := h q
    simp [fsLookup] at this
  | (p, n) :: t₁, [], _, _, h => by
    have := h p
    simp [fsLookup] at this
  | (p, n) :: t₁, (q, m) :: t₂, hs₁, hs₂, h => by
    have hs₁ := List.pairwise_cons.mp hs₁
    have hs₂ := List.pairwise_cons.mp hs₂
    have hpq : p = q := by
      have h1 : fsLookup ((q, m) :: t₂) p = some n := by rw [← h p, fsLookup_head]
      have h2 : fsLookup ((p, n) :: t₁) q = some m := by rw [h q, fsLookup_head]
      have hp2 := mem_of_fsLookup h1
      have hq1 := mem_of_fsLookup h2
      rcases List.mem_cons.mp hp2 with hc | hc
      · rw [Prod.mk.injEq] at hc
        exact hc.1
      · rcases List.mem_cons.mp hq1 with hd | hd
        · rw [Prod.mk.injEq] at hd
          exact hd.1.symm
        · exact absurd (hs₂.1 _ hc) (fun hcontra => pathLt_asymm hcontra (hs₁.1 _ hd))
    subst hpq
    have hnm : n = m := by
      have h1 := h p
      rw [fsLookup_head, fsLookup_head] at h1
      injection h1
    subst hnm
    have htail : t₁ = t₂ := by
      refine fsExt hs₁.2 hs₂.2 fun r => ?_
      by_cases hrp : r = p
      · subst hrp
        rw [fsLookup_eq_none_of_forall fun e he => (pathLt_ne (hs₁.1 e he)).symm,
          fsLookup_eq_none_of_forall fun e he => (pathLt_ne (hs₂.1 e he)).symm]
      · have h3 := h r
        simp only [fsLookup, if_neg (fun h' : p = r => hrp h'.symm)] at h3
        exact h3
    rw [htail]

/-! ### Materialization primitives

`fs_extra::dir::create_all(path, false)` behaves like `std::fs::create_dir_all`:
it creates every missing ancestor (shortest first), treats an already existing
directory as success, and fails if a regular file occupies any of the paths.
`fs_extra::file::write_all(path, content)` is `File::create` + write: it
overwrites an existing regular file, and fails if the path is a directory
(or its parent directory does not exist). -/

/-- Display of a relative path (component list joined by `/`), as it appears
inside the code's panic messages (the constant temp-dir part is omitted). -/
def pathStr (p : RelPath) : String := String.intercalate "/" p

/-- One step of recursive directory creation at path `q`:
already a directory is success; a regular file there is failure. -/
def createDir1 (fs : FS) (q : RelPath) : Option FS :=
  match fsLookup fs q with
  | some (some _) => none
  | some none => some fs
  | none => some (fsInsert fs q none)

/-- Create every path of `ps` as a directory, in order. -/
def createDirs (fs : FS) : List RelPath → Option FS
  | [] => some fs
  | q :: rest =>
    match createDir1 fs q with
    | none => none
    | some fs' => createDirs fs' rest

/-- `create_all(p, false)`: create `p` and all its ancestors, shortest first. -/
def createAll (fs : FS) (p : RelPath) : Option FS := createDirs fs p.inits

/-- `write_all(p, c)`: create/overwrite the regular file at `p` with text `c`.
Fails if `p` is a directory or its parent directory is missing. -/
def writeAll (fs : FS) (p : RelPath) (c : String) : Option FS :=
  if fsLookup fs p = some none then none
  else if fsLookup fs p.dropLast = some none then some (fsInsert fs p (some c))
  else none

/-- The body of the `setup` loop for one store entry, with the code's panic
messages as error values.  For a file entry the code first runs `create_all`
on `path.parent()` (the message quotes that parent), then `write_all` (whose
message, `"fail to create file"`, quotes no path); for a directory entry it
runs `create_all` on the path itself. -/
def setupStep (fs : FS) (e : RelPath × Node) : Except String FS :=
  match e.2 with
  | some content =>
    match createAll fs e.1.dropLast with
    | none => .error ("fail to create directory " ++ pathStr e.1.dropLast)
    | some fs' =>
      match writeAll fs' e.1 content with
      | none => .error "fail to create file"
      | some fs'' => .ok fs''
  | none =>
    match createAll fs e.1 with
    | none => .error ("fail to create directory " ++ pathStr e.1)
    | some fs' => .ok fs'

/-- `setup`, iterating the store entries in the given (HashMap) order over an
initial on-disk state `fs`.  A fresh workspace is `fsEmpty`. -/
def setupFrom (fs : FS) : List (RelPath × Node) → Except String FS
  | [] => .ok fs
  | e :: rest =>
    match setupStep fs e with
    | .error msg => .error msg
    | .ok fs' => setupFrom fs' rest

theorem mem_inits_iff {q p : RelPath} : q ∈ p.inits ↔ ∃ r, q ++ r = p :=
  List.mem_inits q p

theorem createDirs_none_iff : ∀ (ps : List RelPath) (fs : FS),
    createDirs fs ps = none ↔ ∃ q ∈ ps, ∃ c, fsLookup fs q = some (some c)
  | [], fs => by simp [createDirs]
  | q :: rest, fs => by
    simp only [createDirs, createDir1]
    match hq : fsLookup fs q with
    | some (some c) =>
      simp only [true_iff]
      exact ⟨q, List.mem_cons_self _ _, c, hq⟩
    | some none =>
      rw [createDirs_none_iff rest fs]
      constructor
      · rintro ⟨r, hr, c, hc⟩
        exact ⟨r, List.mem_cons_of_mem _ hr, c, hc⟩
      · rintro ⟨r, hr, c, hc⟩
        rcases List.mem_cons.mp hr with hr | hr
        · rw [hr] at hc
          rw [hq] at hc
          exact absurd hc (by simp)
        · exact ⟨r, hr, c, hc⟩
    | none =>
      rw [createDirs_none_iff rest (fsInsert fs q none)]
      constructor
      · rintro ⟨r, hr, c, hc⟩
        rw [fsLookup_insert] at hc
        by_cases hrq : r = q
        · rw [if_pos hrq] at hc
          exact absurd hc (by simp)
        · rw [if_neg hrq] at hc
          exact ⟨r, List.mem_cons_of_mem _ hr, c, hc⟩
      · rintro ⟨r, hr, c, hc⟩
        rcases List.mem_cons.mp hr with hr | hr
        · rw [hr, hq] at hc
          exact absurd hc (by simp)
        · refine ⟨r, hr, c, ?_⟩
          rw [fsLookup_insert]
          by_cases hrq : r = q
          · rw [hrq, hq] at hc
            exact absurd hc (by simp)
          · rw [if_neg hrq]
            exact hc

theorem createDirs_sorted : ∀ {ps : List RelPath} {fs fs' : FS},
    fsSorted fs → createDirs fs ps = some fs' → fsSorted fs'
  | [], fs, fs', hs, h => by
    simp only [createDirs] at h
    injection h with h
    exact h ▸ hs
  | q :: rest, fs, fs', hs, h => by
    simp only [createDirs, createDir1] at h
    match hq : fsLookup fs q with
    | some (some c) => rw [hq] at h; exact absurd h (by simp)
    | some none => rw [hq] at h; exact createDirs_sorted hs h
    | none => rw [hq] at h; exact createDirs_sorted (fsSorted_insert hs q none) h

theorem createDirs_lookup : ∀ {ps : List RelPath} {fs fs' : FS},
    createDirs fs ps = some fs' → ∀ r, fsLookup fs' r =
      if r ∈ ps ∧ fsLookup fs r = none then some none else fsLookup fs r
  | [], fs, fs', h, r => by
    simp only [createDirs] at h
    injection h with h
    simp [← h]
  | q :: rest, fs, fs', h, r => by
    simp only [createDirs, createDir1] at h
    match hq : fsLookup fs q with
    | some (some c) => rw [hq] at h; exact absurd h (by simp)
    | some none =>
      rw [hq] at h
      rw [createDirs_lookup h r]
      by_cases hmem : r ∈ rest ∧ fsLookup fs r = none
      · rw [if_pos hmem, if_pos ⟨List.mem_cons_of_mem _ hmem.1, hmem.2⟩]
      · rw [if_neg hmem]
        by_cases hmem' : r ∈ q :: rest ∧ fsLookup fs r = none
        · rcases List.mem_cons.mp hmem'.1 with hr | hr
          · rw [hr] at hmem'
            rw [hmem'.2] at hq
            exact absurd hq (by simp)
          · exact absurd ⟨hr, hmem'.2⟩ hmem
        · rw [if_neg hmem']
    | none =>
      rw [hq] at h
      have hl := createDirs_lookup h r
      rw [fsLookup_insert] at hl
      by_cases hrq : r = q
      · subst hrq
        rw [if_pos rfl, ite_self] at hl
        rw [hl, if_pos ⟨List.mem_cons_self _ _, hq⟩]
      · rw [if_neg hrq] at hl
        rw [hl]
        by_cases hmem : r ∈ rest ∧ fsLookup fs r = none
        · rw [if_pos hmem, if_pos ⟨List.mem_cons_of_mem _ hmem.1, hmem.2⟩]
        · rw [if_neg hmem]
          by_cases hmem' : r ∈ q :: rest ∧ fsLookup fs r = none
          · rcases List.mem_cons.mp hmem'.1 with hr | hr
            · exact absurd hr hrq
            · exact absurd ⟨hr, hmem'.2⟩ hmem
          · rw [if_neg hmem']

/-! ### Ancestors, the store, and further materialization lemmas -/

theorem self_mem_inits (p : RelPath) : p ∈ p.inits :=
  mem_inits_iff.mpr ⟨[], by simp⟩

theorem nil_mem_inits (p : RelPath) : ([] : RelPath) ∈ p.inits :=
  mem_inits_iff.mpr ⟨p, rfl⟩

theorem mem_inits_dropLast {q p : RelPath} (hp : p ≠ []) (h : q ∈ p.dropLast.inits) :
    q ∈ p.inits ∧ q ≠ p := by
  obtain ⟨r, hr⟩ := mem_inits_iff.mp h
  have hsplit : p.dropLast ++ [p.getLast hp] = p := List.dropLast_append_getLast hp
  refine ⟨mem_inits_iff.mpr ⟨r ++ [p.getLast hp], by
    rw [← List.append_assoc, hr, hsplit]⟩, ?_⟩
  intro he
  have hlen : q.length + r.length = p.dropLast.length := by
    rw [← hr, List.length_append]
  have hlt : p.dropLast.length < p.length := by
    rw [List.length_dropLast]
    have := List.length_pos.mpr hp
    omega
  rw [he] at hlen
  omega

theorem mem_dropLast_inits {q p : RelPath} (h : q ∈ p.inits) (hne : q ≠ p) :
    q ∈ p.dropLast.inits := by
  obtain ⟨r, hr⟩ := mem_inits_iff.mp h
  cases r with
  | nil => rw [List.append_nil] at hr; exact absurd hr hne
  | cons a r' =>
    refine mem_inits_iff.mpr ⟨(a :: r').dropLast, ?_⟩
    rw [← hr]
    exact (List.dropLast_append_of_ne_nil q (by simp)).symm

/-- The keys of the specification store (`HashMap` keys are distinct). -/
def storeKeys (l : List (RelPath × Node)) : List RelPath := l.map Prod.fst

theorem mem_storeKeys {l : List (RelPath × Node)} {p : RelPath} :
    p ∈ storeKeys l ↔ ∃ n, (p, n) ∈ l := by
  constructor
  · intro h
    obtain ⟨e, he, hfst⟩ := List.mem_map.mp h
    exact ⟨e.2, by rw [← hfst]; exact he⟩
  · rintro ⟨n, hn⟩
    exact List.mem_map.mpr ⟨(p, n), hn, rfl⟩

theorem storeLookup_of_mem_nodup {l : List (RelPath × Node)} {p : RelPath} {n : Node}
    (hnd : (storeKeys l).Nodup) (h : (p, n) ∈ l) : fsLookup l p = some n := by
  induction l with
  | nil => simp at h
  | cons e rest ih =>
    obtain ⟨q, m⟩ := e
    have hnd' := List.pairwise_cons.mp hnd
    rcases List.mem_cons.mp h with h | h
    · rw [Prod.mk.injEq] at h
      simp [fsLookup, h.1.symm, h.2]
    · simp only [fsLookup]
      by_cases hq : q = p
      · exact absurd (hq ▸ mem_storeKeys.mpr ⟨n, h⟩ : q ∈ storeKeys rest)
          (by simpa [storeKeys] using fun hc => hnd'.1 q hc rfl)
      · rw [if_neg hq]
        exact ih hnd'.2 h

theorem createDirs_of_all_dirs : ∀ {ps : List RelPath} {fs : FS},
    (∀ q ∈ ps, fsLookup fs q = some none) → createDirs fs ps = some fs
  | [], fs, _ => rfl
  | q :: rest, fs, h => by
    simp only [createDirs, createDir1, h q (List.mem_cons_self _ _)]
    exact createDirs_of_all_dirs fun r hr => h r (List.mem_cons_of_mem _ hr)

theorem createDirs_post {ps : List RelPath} {fs fs' : FS}
    (h : createDirs fs ps = some fs') {q : RelPath} (hq : q ∈ ps) :
    fsLookup fs' q = some none := by
  have hnf : ∀ c, fsLookup fs q ≠ some (some c) := by
    intro c hc
    have : createDirs fs ps = none := (createDirs_none_iff ps fs).mpr ⟨q, hq, c, hc⟩
    rw [this] at h
    exact absurd h (by simp)
  rw [createDirs_lookup h q]
  cases hl : fsLookup fs q with
  | none => rw [if_pos ⟨hq, rfl⟩]
  | some n =>
    cases n with
    | none => rw [ite_self]
    | some c => exact absurd hl (hnf c)

theorem fsInsert_self {fs : FS} {p : RelPath} {n : Node}
    (hs : fsSorted fs) (h : fsLookup fs p = some n) : fsInsert fs p n = fs := by
  refine fsExt (fsSorted_insert hs p n) hs fun q => ?_
  rw [fsLookup_insert]
  by_cases hq : q = p
  · subst hq; rw [if_pos rfl, h]
  · rw [if_neg hq]

/-! ### One setup step -/

/-- The directories an entry requires: for a file entry the ancestors of its
path (what `create_all(path.parent())` creates), for a directory entry the
path itself and its ancestors. -/
def entryDirs (e : RelPath × Node) : List RelPath :=
  match e.2 with
  | some _ => e.1.dropLast.inits
  | none => e.1.inits

/-- The entry is satisfied on disk: its required directories exist, and a
file entry's path holds exactly its content. -/
def EntryHolds (fs : FS) (e : RelPath × Node) : Prop :=
  (∀ q ∈ entryDirs e, fsLookup fs q = some none) ∧
  ∀ c, e.2 = some c → fsLookup fs e.1 = some (some c)

theorem writeAll_ok {fs : FS} {p : RelPath} {c : String} {fs' : FS}
    (h : writeAll fs p c = some fs') :
    fsLookup fs p ≠ some none ∧ fsLookup fs p.dropLast = some none ∧
      fs' = fsInsert fs p (some c) := by
  simp only [writeAll] at h
  by_cases h1 : fsLookup fs p = some none
  · rw [if_pos h1] at h
    exact absurd h (by simp)
  · rw [if_neg h1] at h
    by_cases h2 : fsLookup fs p.dropLast = some none
    · rw [if_pos h2] at h
      injection h with h
      exact ⟨h1, h2, h.symm⟩
    · rw [if_neg h2] at h
      exact absurd h (by simp)

theorem setupStep_ok_elim {fs : FS} {e : RelPath × Node} {fs' : FS}
    (h : setupStep fs e = .ok fs') :
    (∃ c fs₁, e.2 = some c ∧ createAll fs e.1.dropLast = some fs₁ ∧
      writeAll fs₁ e.1 c = some fs') ∨
    (e.2 = none ∧ createAll fs e.1 = some fs') := by
  obtain ⟨p, n⟩ := e
  cases n with
  | some c =>
    left
    simp only [setupStep] at h
    cases hca : createAll fs p.dropLast with
    | none => simp only [hca] at h; exact Except.noConfusion h
    | some fs₁ =>
      simp only [hca] at h
      cases hw : writeAll fs₁ p c with
      | none => simp only [hw] at h; exact Except.noConfusion h
      | some fs₂ =>
        simp only [hw] at h
        injection h with h
        exact ⟨c, fs₁, rfl, rfl, hw.trans (by rw [h])⟩
  | none =>
    right
    simp only [setupStep] at h
    cases hca : createAll fs p with
    | none => simp only [hca] at h; exact Except.noConfusion h
    | some fs₁ =>
      simp only [hca] at h
      injection h with h
      exact ⟨rfl, by rw [h]⟩

theorem setupStep_sorted {fs fs' : FS} {e : RelPath × Node}
    (h : setupStep fs e = .ok fs') (hs : fsSorted fs) : fsSorted fs' := by
  rcases setupStep_ok_elim h with ⟨c, fs₁, _, hca, hw⟩ | ⟨_, hca⟩
  · obtain ⟨_, _, hfs'⟩ := writeAll_ok hw
    rw [hfs']
    exact fsSorted_insert (createDirs_sorted hs hca) _ _
  · exact createDirs_sorted hs hca

theorem setupStep_preserves_dir {fs fs' : FS} {e : RelPath × Node}
    (h : setupStep fs e = .ok fs') {q : RelPath}
    (hq : fsLookup fs q = some none) : fsLookup fs' q = some none := by
  rcases setupStep_ok_elim h with ⟨c, fs₁, _, hca, hw⟩ | ⟨_, hca⟩
  · obtain ⟨hnd, _, hfs'⟩ := writeAll_ok hw
    have h₁ : fsLookup fs₁ q = some none := by
      rw [createDirs_lookup hca q,
        if_neg (fun hcon => by rw [hq] at hcon; exact absurd hcon.2 (by simp)), hq]
    rw [hfs', fsLookup_insert]
    by_cases hqp : q = e.1
    · subst hqp
      exact absurd h₁ hnd
    · rw [if_neg hqp]
      exact h₁
  · rw [createDirs_lookup hca q,
      if_neg (fun hcon => by rw [hq] at hcon; exact absurd hcon.2 (by simp)), hq]

theorem setupStep_preserves_file {fs fs' : FS} {e : RelPath × Node}
    (h : setupStep fs e = .ok fs') {q : RelPath} {c : String}
    (hne : q ≠ e.1) (hq : fsLookup fs q = some (some c)) :
    fsLookup fs' q = some (some c) := by
  rcases setupStep_ok_elim h with ⟨c', fs₁, _, hca, hw⟩ | ⟨_, hca⟩
  · obtain ⟨_, _, hfs'⟩ := writeAll_ok hw
    have h₁ : fsLookup fs₁ q = some (some c) := by
      rw [createDirs_lookup hca q,
        if_neg (fun hcon => by rw [hq] at hcon; exact absurd hcon.2 (by simp)), hq]
    rw [hfs', fsLookup_insert, if_neg hne]
    exact h₁
  · rw [createDirs_lookup hca q,
      if_neg (fun hcon => by rw [hq] at hcon; exact absurd hcon.2 (by simp)), hq]

theorem setupStep_establishes {fs fs' : FS} {e : RelPath × Node}
    (h : setupStep fs e = .ok fs') : EntryHolds fs' e := by
  obtain ⟨p, n⟩ := e
  rcases setupStep_ok_elim h with ⟨c, fs₁, he, hca, hw⟩ | ⟨he, hca⟩
  · have he' : n = some c := he
    subst he'
    obtain ⟨hnd, hpar, hfs'⟩ := writeAll_ok hw
    constructor
    · intro q hq
      have h₁ : fsLookup fs₁ q = some none := createDirs_post hca hq
      rw [hfs', fsLookup_insert]
      by_cases hqp : q = p
      · subst hqp
        exact absurd h₁ hnd
      · rw [if_neg hqp]
        exact h₁
    · intro c' hc'
      have hc2 : some c = some c' := hc'
      injection hc2 with hc2
      subst hc2
      rw [hfs', fsLookup_insert, if_pos rfl]
  · have he' : n = none := he
    subst he'
    constructor
    · intro q hq
      exact createDirs_post hca hq
    · intro c' hc'
      exact absurd hc' (by simp)

theorem setupStep_of_holds {fs : FS} {e : RelPath × Node}
    (hs : fsSorted fs) (h : EntryHolds fs e) : setupStep fs e = .ok fs := by
  obtain ⟨p, n⟩ := e
  cases n with
  | some c =>
    have hfile : fsLookup fs p = some (some c) := h.2 c rfl
    have hdirs : ∀ q ∈ p.dropLast.inits, fsLookup fs q = some none := h.1
    have hca : createAll fs p.dropLast = some fs := createDirs_of_all_dirs hdirs
    have hw : writeAll fs p c = some fs := by
      simp only [writeAll]
      rw [if_neg (by rw [hfile]; simp), if_pos (hdirs _ (self_mem_inits _)),
        fsInsert_self hs hfile]
    simp [setupStep, hca, hw]
  | none =>
    have hca : createAll fs p = some fs := createDirs_of_all_dirs h.1
    simp [setupStep, hca]

theorem setupStep_inv {fs fs' : FS} {e : RelPath × Node}
    (h : setupStep fs e = .ok fs') :
    (∀ q, fsLookup fs' q = some none → fsLookup fs q = some none ∨ q ∈ entryDirs e) ∧
    (∀ q c, fsLookup fs' q = some (some c) →
      fsLookup fs q = some (some c) ∨ (q, some c) = e) := by
  obtain ⟨p, n⟩ := e
  rcases setupStep_ok_elim h with ⟨c, fs₁, he, hca, hw⟩ | ⟨he, hca⟩
  · have he' : n = some c := he
    subst he'
    obtain ⟨hnd, hpar, hfs'⟩ := writeAll_ok hw
    constructor
    · intro q hq
      rw [hfs', fsLookup_insert] at hq
      by_cases hqp : q = p
      · rw [if_pos hqp] at hq
        exact absurd hq (by simp)
      · rw [if_neg hqp] at hq
        rw [createDirs_lookup hca q] at hq
        by_cases hcond : q ∈ p.dropLast.inits ∧ fsLookup fs q = none
        · exact Or.inr (show q ∈ entryDirs (p, some c) from hcond.1)
        · rw [if_neg hcond] at hq
          exact Or.inl hq
    · intro q c' hq
      rw [hfs', fsLookup_insert] at hq
      by_cases hqp : q = p
      · rw [if_pos hqp] at hq
        injection hq with hq
        injection hq with hq
        subst hqp
        subst hq
        exact Or.inr rfl
      · rw [if_neg hqp] at hq
        rw [createDirs_lookup hca q] at hq
        by_cases hcond : q ∈ p.dropLast.inits ∧ fsLookup fs q = none
        · rw [if_pos hcond] at hq
          exact absurd hq (by simp)
        · rw [if_neg hcond] at hq
          exact Or.inl hq
  · have he' : n = none := he
    subst he'
    constructor
    · intro q hq
      rw [createDirs_lookup hca q] at hq
      by_cases hcond : q ∈ p.inits ∧ fsLookup fs q = none
      · exact Or.inr (show q ∈ entryDirs (p, none) from hcond.1)
      · rw [if_neg hcond] at hq
        exact Or.inl hq
    · intro q c' hq
      rw [createDirs_lookup hca q] at hq
      by_cases hcond : q ∈ p.inits ∧ fsLookup fs q = none
      · rw [if_pos hcond] at hq
        exact absurd hq (by simp)
      · rw [if_neg hcond] at hq
        exact Or.inl hq

/-! ### Whole-run lemmas -/

theorem setupFrom_sorted : ∀ {l : List (RelPath × Node)} {fs fs' : FS},
    setupFrom fs l = .ok fs' → fsSorted fs → fsSorted fs'
  | [], fs, fs', h, hs => by
    simp only [setupFrom] at h
    injection h with h
    exact h ▸ hs
  | e :: rest, fs, fs', h, hs => by
    simp only [setupFrom] at h
    cases hst : setupStep fs e with
    | error m => simp only [hst] at h; exact Except.noConfusion h
    | ok fs₁ =>
      simp only [hst] at h
      exact setupFrom_sorted h (setupStep_sorted hst hs)

theorem setupFrom_preserves_dir : ∀ {l : List (RelPath × Node)} {fs fs' : FS},
    setupFrom fs l = .ok fs' → ∀ {q : RelPath},
    fsLookup fs q = some none → fsLookup fs' q = some none
  | [], fs, fs', h, q, hq => by
    simp only [setupFrom] at h
    injection h with h
    exact h ▸ hq
  | e :: rest, fs, fs', h, q, hq => by
    simp only [setupFrom] at h
    cases hst : setupStep fs e with
    | error m => simp only [hst] at h; exact Except.noConfusion h
    | ok fs₁ =>
      simp only [hst] at h
      exact setupFrom_preserves_dir h (setupStep_preserves_dir hst hq)

theorem setupFrom_preserves_file : ∀ {l : List (RelPath × Node)} {fs fs' : FS},
    setupFrom fs l = .ok fs' → ∀ {q : RelPath} {c : String},
    (∀ e ∈ l, e.1 ≠ q) → fsLookup fs q = some (some c) →
    fsLookup fs' q = some (some c)
  | [], fs, fs', h, q, c, _, hq => by
    simp only [setupFrom] at h
    injection h with h
    exact h ▸ hq
  | e :: rest, fs, fs', h, q, c, hne, hq => by
    simp only [setupFrom] at h
    cases hst : setupStep fs e with
    | error m => simp only [hst] at h; exact Except.noConfusion h
    | ok fs₁ =>
      simp only [hst] at h
      refine setupFrom_preserves_file h (fun e' he' => hne e' (List.mem_cons_of_mem _ he')) ?_
      exact setupStep_preserves_file hst
        (fun hcon => hne e (List.mem_cons_self _ _) hcon.symm) hq

theorem setupFrom_holds : ∀ {l : List (RelPath × Node)} {fs fs' : FS},
    setupFrom fs l = .ok fs' → fsSorted fs → (storeKeys l).Nodup →
    ∀ e ∈ l, EntryHolds fs' e
  | [], fs, fs', _, _, _, e, he => by simp at he
  | e₀ :: rest, fs, fs', h, hs, hnd, e, he => by
    have hnd' := List.pairwise_cons.mp (show (e₀.1 :: storeKeys rest).Nodup by
      simpa [storeKeys] using hnd)
    simp only [setupFrom] at h
    cases hst : setupStep fs e₀ with
    | error m => simp only [hst] at h; exact Except.noConfusion h
    | ok fs₁ =>
      simp only [hst] at h
      rcases List.mem_cons.mp he with he | he
      · subst he
        have hest := setupStep_establishes hst
        constructor
        · intro q hq
          exact setupFrom_preserves_dir h (hest.1 q hq)
        · intro c hc
          refine setupFrom_preserves_file h ?_ (hest.2 c hc)
          intro e' he' hcon
          exact hnd'.1 e'.1 (List.mem_map.mpr ⟨e', he', rfl⟩) hcon.symm
      · exact setupFrom_holds h (setupStep_sorted hst hs) hnd'.2 e he

theorem setupFrom_inv : ∀ {l : List (RelPath × Node)} {fs fs' : FS},
    setupFrom fs l = .ok fs' →
    (∀ q, fsLookup fs' q = some none →
      fsLookup fs q = some none ∨ ∃ e ∈ l, q ∈ entryDirs e) ∧
    (∀ q c, fsLookup fs' q = some (some c) →
      fsLookup fs q = some (some c) ∨ (q, some c) ∈ l)
  | [], fs, fs', h => by
    simp only [setupFrom] at h
    injection h with h
    subst h
    exact ⟨fun q hq => Or.inl hq, fun q c hq => Or.inl hq⟩
  | e₀ :: rest, fs, fs', h => by
    simp only [setupFrom] at h
    cases hst : setupStep fs e₀ with
    | error m => simp only [hst] at h; exact Except.noConfusion h
    | ok fs₁ =>
      simp only [hst] at h
      have hrest := setupFrom_inv h
      have hstep := setupStep_inv hst
      constructor
      · intro q hq
        rcases hrest.1 q hq with h₁ | ⟨e, he, hq'⟩
        · rcases hstep.1 q h₁ with h₂ | h₂
          · exact Or.inl h₂
          · exact Or.inr ⟨e₀, List.mem_cons_self _ _, h₂⟩
        · exact Or.inr ⟨e, List.mem_cons_of_mem _ he, hq'⟩
      · intro q c hq
        rcases hrest.2 q c hq with h₁ | h₁
        · rcases hstep.2 q c h₁ with h₂ | h₂
          · exact Or.inl h₂
          · exact Or.inr (h₂ ▸ List.mem_cons_self _ _)
        · exact Or.inr (List.mem_cons_of_mem _ h₁)

theorem setupFrom_of_holds : ∀ {l : List (RelPath × Node)} {fs : FS},
    fsSorted fs → (∀ e ∈ l, EntryHolds fs e) → setupFrom fs l = .ok fs
  | [], fs, _, _ => rfl
  | e₀ :: rest, fs, hs, hh => by
    simp only [setupFrom]
    rw [setupStep_of_holds hs (hh e₀ (List.mem_cons_self _ _))]
    exact setupFrom_of_holds hs fun e he => hh e (List.mem_cons_of_mem _ he)

/-! ### Order-independent characterization of the final state -/

theorem fsEmpty_lookup (p : RelPath) :
    fsLookup fsEmpty p = if p = [] then some none else none := by
  simp only [fsEmpty, fsLookup]
  by_cases hp : p = []
  · rw [if_pos hp.symm, if_pos hp]
  · rw [if_neg (fun h => hp h.symm), if_neg hp]

theorem fsEmpty_sorted : fsSorted fsEmpty := by simp [fsEmpty]

/-- The node that the store implies at path `p`, independent of iteration
order: the store's own entry at `p` when there is one, else a directory when
`p` is the workspace root or an ancestor directory required by some entry,
else nothing. -/
def specLookup (l : List (RelPath × Node)) (p : RelPath) : Option Node :=
  match fsLookup l p with
  | some n => some n
  | none =>
    if p = [] ∨ (l.any (fun e => decide (p ∈ entryDirs e)) = true) then some none
    else none

theorem setup_lookup_eq_specLookup {l : List (RelPath × Node)} {fs : FS}
    (hnd : (storeKeys l).Nodup) (hok : setupFrom fsEmpty l = .ok fs) :
    ∀ p, fsLookup fs p = specLookup l p := by
  intro p
  have hroot : fsLookup fs [] = some none :=
    setupFrom_preserves_dir hok (by rw [fsEmpty_lookup]; simp)
  have hholds := setupFrom_holds hok fsEmpty_sorted hnd
  have hinv := setupFrom_inv hok
  simp only [specLookup]
  cases hl : fsLookup l p with
  | some n =>
    have hmem := mem_of_fsLookup hl
    have hE := hholds _ hmem
    cases n with
    | some c => exact hE.2 c rfl
    | none => exact hE.1 p (self_mem_inits p)
  | none =>
    by_cases hcond : p = [] ∨ (l.any (fun e => decide (p ∈ entryDirs e)) = true)
    · rw [if_pos hcond]
      rcases hcond with hp | hany
      · subst hp; exact hroot
      · obtain ⟨e, he, hdec⟩ := List.any_eq_true.mp hany
        exact (hholds e he).1 p (of_decide_eq_true hdec)
    · rw [if_neg hcond]
      cases hfs : fsLookup fs p with
      | none => rfl
      | some n =>
        exfalso
        cases n with
        | some c =>
          rcases hinv.2 p c hfs with hcon | hcon
          · rw [fsEmpty_lookup] at hcon
            by_cases hpe : p = []
            · rw [if_pos hpe] at hcon
              exact Option.noConfusion (Option.some.inj hcon)
            · rw [if_neg hpe] at hcon
              exact Option.noConfusion hcon
          · have hcl : fsLookup l p = some (some c) := storeLookup_of_mem_nodup hnd hcon
            rw [hl] at hcl
            exact Option.noConfusion hcl
        | none =>
          rcases hinv.1 p hfs with hcon | hcon
          · rw [fsEmpty_lookup] at hcon
            by_cases hpe : p = []
            · exact hcond (Or.inl hpe)
            · rw [if_neg hpe] at hcon
              exact Option.noConfusion hcon
          · obtain ⟨e, he, hq⟩ := hcon
            exact hcond (Or.inr (List.any_eq_true.mpr ⟨e, he, decide_eq_true hq⟩))

theorem specLookup_perm {l₁ l₂ : List (RelPath × Node)} (hperm : l₁.Perm l₂)
    (hnd : (storeKeys l₁).Nodup) : ∀ p, specLookup l₁ p = specLookup l₂ p := by
  intro p
  have hnd₂ : (storeKeys l₂).Nodup := ((hperm.map Prod.fst).nodup_iff).mp hnd
  have hl : fsLookup l₁ p = fsLookup l₂ p := by
    cases h₁ : fsLookup l₁ p with
    | some n =>
      exact (storeLookup_of_mem_nodup hnd₂ (hperm.mem_iff.mp (mem_of_fsLookup h₁))).symm
    | none =>
      cases h₂ : fsLookup l₂ p with
      | none => rfl
      | some n =>
        have hc := storeLookup_of_mem_nodup hnd (hperm.mem_iff.mpr (mem_of_fsLookup h₂))
        rw [h₁] at hc
        exact Option.noConfusion hc
  have hany : (l₁.any (fun e => decide (p ∈ entryDirs e)) = true) ↔
      (l₂.any (fun e => decide (p ∈ entryDirs e)) = true) := by
    rw [List.any_eq_true, List.any_eq_true]
    constructor
    · rintro ⟨e, he, hf⟩
      exact ⟨e, hperm.mem_iff.mp he, hf⟩
    · rintro ⟨e, he, hf⟩
      exact ⟨e, hperm.mem_iff.mpr he, hf⟩
  simp only [specLookup, hl]
  cases fsLookup l₂ p with
  | some n => rfl
  | none =>
    by_cases hcond : p = [] ∨ (l₁.any (fun e => decide (p ∈ entryDirs e)) = true)
    · rw [if_pos hcond, if_pos (hcond.imp id hany.mp)]
    · rw [if_neg hcond, if_neg (fun hcon => hcond (hcon.imp id hany.mpr))]

/-- Two successful materializations of permuted stores produce the same
on-disk state. -/
theorem setup_perm_eq {l₁ l₂ : List (RelPath × Node)} {fs₁ fs₂ : FS}
    (hperm : l₁.Perm l₂) (hnd : (storeKeys l₁).Nodup)
    (h₁ : setupFrom fsEmpty l₁ = .ok fs₁) (h₂ : setupFrom fsEmpty l₂ = .ok fs₂) :
    fs₁ = fs₂ := by
  have hnd₂ : (storeKeys l₂).Nodup := ((hperm.map Prod.fst).nodup_iff).mp hnd
  refine fsExt (setupFrom_sorted h₁ fsEmpty_sorted) (setupFrom_sorted h₂ fsEmpty_sorted)
    fun p => ?_
  rw [setup_lookup_eq_specLookup hnd h₁ p, setup_lookup_eq_specLookup hnd₂ h₂ p]
  exact specLookup_perm hperm hnd p

/-! ### Tree listing

`tree()` walks the workspace (every entry strips to its path relative to the
root; the root itself strips to the empty path), collects the relative paths
and sorts them. -/

/-- Insert into an ascending list of paths. -/
def insertSorted (p : RelPath) : List RelPath → List RelPath
  | [] => [p]
  | q :: rest => if pathLtB q p then q :: insertSorted p rest else p :: q :: rest

/-- Ascending sort of a path list (the `tree.sort()` call). -/
def sortPaths : List RelPath → List RelPath
  | [] => []
  | p :: rest => insertSorted p (sortPaths rest)

/-- `tree()`: all paths under the workspace root, relative to it, sorted. -/
def tree (fs : FS) : List RelPath := sortPaths (fs.map Prod.fst)

theorem mem_insertSorted {p a : RelPath} : ∀ {l : List RelPath},
    a ∈ insertSorted p l ↔ a = p ∨ a ∈ l
  | [] => by simp [insertSorted]
  | q :: rest => by
    simp only [insertSorted]
    by_cases h : pathLtB q p = true
    · rw [if_pos h]
      constructor
      · intro ha
        rcases List.mem_cons.mp ha with ha | ha
        · exact Or.inr (ha ▸ List.mem_cons_self _ _)
        · rcases mem_insertSorted.mp ha with ha | ha
          · exact Or.inl ha
          · exact Or.inr (List.mem_cons_of_mem _ ha)
      · intro ha
        rcases ha with ha | ha
        · exact List.mem_cons_of_mem _ (mem_insertSorted.mpr (Or.inl ha))
        · rcases List.mem_cons.mp ha with ha | ha
          · exact ha ▸ List.mem_cons_self _ _
          · exact List.mem_cons_of_mem _ (mem_insertSorted.mpr (Or.inr ha))
    · rw [if_neg h]
      simp [List.mem_cons]

theorem mem_sortPaths {a : RelPath} : ∀ {l : List RelPath},
    a ∈ sortPaths l ↔ a ∈ l
  | [] => Iff.rfl
  | p :: rest => by
    simp only [sortPaths]
    rw [mem_insertSorted, mem_sortPaths, List.mem_cons]

theorem insertSorted_of_forall_lt : ∀ {l : List RelPath} {p : RelPath},
    (∀ q ∈ l, pathLt p q) → insertSorted p l = p :: l
  | [], p, _ => rfl
  | q :: rest, p, h => by
    simp only [insertSorted]
    rw [if_neg (show ¬ pathLtB q p = true from
      fun hc => pathLt_asymm (h q (List.mem_cons_self _ _)) hc)]

theorem sortPaths_of_pairwise : ∀ {l : List RelPath},
    l.Pairwise pathLt → sortPaths l = l
  | [], _ => rfl
  | p :: rest, h => by
    have h' := List.pairwise_cons.mp h
    simp only [sortPaths]
    rw [sortPaths_of_pairwise h'.2, insertSorted_of_forall_lt h'.1]

theorem tree_eq_keys {fs : FS} (hs : fsSorted fs) : tree fs = fs.map Prod.fst := by
  unfold tree
  exact sortPaths_of_pairwise (List.Pairwise.map Prod.fst (fun a b h => h) hs)

theorem mem_keys_iff_lookup {fs : FS} {p : RelPath} (hs : fsSorted fs) :
    p ∈ fs.map Prod.fst ↔ ∃ n, fsLookup fs p = some n := by
  constructor
  · intro h
    obtain ⟨e, he, hfst⟩ := List.mem_map.mp h
    obtain ⟨q, n⟩ := e
    cases hfst
    exact ⟨n, fsLookup_of_mem hs he⟩
  · rintro ⟨n, hn⟩
    exact List.mem_map.mpr ⟨(p, n), mem_of_fsLookup hn, rfl⟩

/-! ### The environment -/

/-- A Rust `PathBuf`: an absoluteness flag plus components. -/
structure RPath where
  absolute : Bool
  comps : List String
deriving DecidableEq, Repr

/-- `Path::join` as used at `tmp_dir.path().join(path)` in `read_file`,
`setup` and `set_exec_permission`: pushing an absolute path replaces the
receiver entirely; pushing a relative path appends its components. -/
def joinPath (a b : RPath) : RPath :=
  if b.absolute then b else ⟨a.absolute, a.comps ++ b.comps⟩

/-- An `assert_cmd::Command`: program, working directory, arguments. The
caller may append arguments and environment after receiving it; the
environment itself only configures. -/
structure Command where
  program : String
  cwd : Option RPath := none
  args : List String := []
deriving DecidableEq, Repr

/-- The test environment: label, owned workspace root (the allocated temp
directory), specification store, and command-customization hook. -/
structure IntegrationTestEnvironment where
  label : String
  tmp_dir : RPath
  entries : List (RelPath × Node)
  cfg_command_callback : RPath → Command → Command

namespace IntegrationTestEnvironment

/-- `new(label)`: empty store and identity hook. The temp-dir allocation is
an OS call, so the allocated root is a parameter of the model. -/
def new (label : String) (tmp_dir : RPath) : IntegrationTestEnvironment :=
  { label := label, tmp_dir := tmp_dir, entries := [],
    cfg_command_callback := fun _ c => c }

/-- `path()`: the workspace root. -/
def path (e : IntegrationTestEnvironment) : RPath := e.tmp_dir

def set_cfg_command_callback (e : IntegrationTestEnvironment)
    (callback : RPath → Command → Command) : IntegrationTestEnvironment :=
  { e with cfg_command_callback := callback }

/-- `HashMap::insert`: replace the entry at the key in place, else add it. -/
def storeInsert : List (RelPath × Node) → RelPath → Node → List (RelPath × Node)
  | [], p, n => [(p, n)]
  | (q, m) :: rest, p, n =>
    if q = p then (p, n) :: rest else (q, m) :: storeInsert rest p n

/-- `add_file(path, content)`: record a file entry (overwriting any prior
entry at the same path). No filesystem access happens here. -/
def add_file (e : IntegrationTestEnvironment) (p : RelPath) (content : String) :
    IntegrationTestEnvironment :=
  { e with entries := storeInsert e.entries p (some content) }

/-- `add_dir(path)`: record a directory entry (overwriting any prior entry
at the same path). -/
def add_dir (e : IntegrationTestEnvironment) (p : RelPath) :
    IntegrationTestEnvironment :=
  { e with entries := storeInsert e.entries p none }

/-- `setup()`: materialize the store into the current on-disk state `fs`,
iterating the entries in the store's own association order (the `HashMap`
iteration order is arbitrary; theorems quantify over permutations via
`setupFrom`). -/
def setup (e : IntegrationTestEnvironment) (fs : FS) : Except String FS :=
  setupFrom fs e.entries

/-- `read_file(path)`: read the text at the workspace-relative path; panics
(modelled as `.error`) with the offending path in the message when no
regular file is there. -/
def read_file (fs : FS) (p : RelPath) : Except String String :=
  match fsLookup fs p with
  | some (some c) => .ok c
  | _ => .error ("fail to read file " ++ pathStr p)

/-- `set_exec_permission(file)`: `set_permissions(root.join(file), 0o755)`,
an `io::Result` returned to the caller rather than a panic: `Ok` exactly
when the path exists, recording mode `0o755 = 493` for it; the raw OS error
(no path attached) otherwise. -/
def set_exec_permission (fs : FS) (perms : RelPath → Nat) (p : RelPath) :
    Except String (RelPath → Nat) :=
  if (fsLookup fs p).isSome then
    .ok (fun q => if q = p then 493 else perms q)
  else .error "No such file or directory (os error 2)"

/-- `command(crate_name)`: resolve the binary via `Command::cargo_bin`
(external to this repository, modelled as the `resolve` parameter; the
`unwrap()` panics on resolution failure), bind the working directory to the
workspace root, then pass the pair through the stored hook. -/
def command (resolve : String → Option Command)
    (e : IntegrationTestEnvironment) (crate_name : String) :
    Except String Command :=
  match resolve crate_name with
  | none => .error "called Option::unwrap on a None value"
  | some c => .ok (e.cfg_command_callback e.path { c with cwd := some e.path })

end IntegrationTestEnvironment

theorem storeInsert_lookup (l : List (RelPath × Node)) (p : RelPath) (n : Node)
    (q : RelPath) :
    fsLookup (IntegrationTestEnvironment.storeInsert l p n) q =
      if q = p then some n else fsLookup l q := by
  induction l with
  | nil =>
    show (if p = q then some n else none) = _
    by_cases h : p = q
    · rw [if_pos h, if_pos h.symm]
    · rw [if_neg h, if_neg (fun h' : q = p => h h'.symm)]
      rfl
  | cons e rest ih =>
    obtain ⟨r, m⟩ := e
    simp only [IntegrationTestEnvironment.storeInsert]
    by_cases hrp : r = p
    · rw [if_pos hrp]
      subst hrp
      simp only [fsLookup]
      by_cases hq : r = q
      · rw [if_pos hq, if_pos hq.symm]
      · rw [if_neg hq, if_neg (fun h' : q = r => hq h'.symm), if_neg hq]
    · rw [if_neg hrp]
      simp only [fsLookup]
      by_cases hq : r = q
      · subst hq
        rw [if_pos rfl, if_neg (fun h' : r = p => hrp h'), if_pos rfl]
      · rw [if_neg hq, if_neg hq, ih]

theorem mem_storeKeys_storeInsert {l : List (RelPath × Node)} {p k : RelPath}
    {n : Node} :
    k ∈ storeKeys (IntegrationTestEnvironment.storeInsert l p n) ↔
      k ∈ storeKeys l ∨ k = p := by
  induction l with
  | nil => simp [IntegrationTestEnvironment.storeInsert, storeKeys]
  | cons e rest ih =>
    obtain ⟨r, m⟩ := e
    simp only [IntegrationTestEnvironment.storeInsert]
    by_cases hrp : r = p
    · rw [if_pos hrp]
      subst hrp
      simp only [storeKeys, List.map_cons, List.mem_cons]
      constructor
      · rintro (h | h)
        · exact Or.inr h
        · exact Or.inl (Or.inr h)
      · rintro ((h | h) | h)
        · exact Or.inl h
        · exact Or.inr h
        · exact Or.inl h
    · rw [if_neg hrp]
      simp only [storeKeys, List.map_cons, List.mem_cons] at ih ⊢
      constructor
      · rintro (h | h)
        · exact Or.inl (Or.inl h)
        · rcases ih.mp h with h' | h'
          · exact Or.inl (Or.inr h')
          · exact Or.inr h'
      · rintro ((h | h) | h)
        · exact Or.inl h
        · exact Or.inr (ih.mpr (Or.inl h))
        · exact Or.inr (ih.mpr (Or.inr h))

theorem storeInsert_nodup {l : List (RelPath × Node)} (hnd : (storeKeys l).Nodup)
    (p : RelPath) (n : Node) :
    (storeKeys (IntegrationTestEnvironment.storeInsert l p n)).Nodup := by
  induction l with
  | nil => simp [IntegrationTestEnvironment.storeInsert, storeKeys]
  | cons e rest ih =>
    obtain ⟨r, m⟩ := e
    have hnd' := List.pairwise_cons.mp (show (r :: storeKeys rest).Nodup by
      simpa [storeKeys] using hnd)
    simp only [IntegrationTestEnvironment.storeInsert]
    by_cases hrp : r = p
    · rw [if_pos hrp]
      subst hrp
      show ((r, n) :: rest).map Prod.fst |>.Nodup
      simpa [storeKeys] using hnd
    · rw [if_neg hrp]
      show (r :: storeKeys (IntegrationTestEnvironment.storeInsert rest p n)).Nodup
      refine List.pairwise_cons.mpr ⟨?_, ih hnd'.2⟩
      intro k hk
      rcases mem_storeKeys_storeInsert.mp hk with hk | hk
      · exact hnd'.1 k hk
      · exact hk ▸ hrp

/-! ### The claims -/

theorem append_ne_nil_ne {p r q : RelPath} (hr : r ≠ []) (heq : p ++ r = q) :
    p ≠ q := by
  intro he
  subst he
  have hlen := congrArg List.length heq
  rw [List.length_append] at hlen
  exact hr (List.length_eq_zero.mp (by omega))

/-- C1 (counterexample): with the single call `add_file("file1", "test 1")`,
`tree()` after `setup()` is `["", "file1"]` — the workspace root appears as
the empty relative path, an entry beyond the claimed sorted set
`["file1"]` (the added paths plus their intermediate ancestors). -/
theorem tree_includes_root_entry :
    setupFrom fsEmpty [((["file1"] : RelPath), (some "test 1" : Node))] =
      .ok [([], none), (["file1"], some "test 1")] ∧
    tree [([], none), (["file1"], some "test 1")] = [[], ["file1"]] ∧
    tree [([], none), (["file1"], some "test 1")] ≠ [(["file1"] : RelPath)] := by
  refine ⟨rfl, rfl, ?_⟩
  decide

/-- C1 (amended): for pairwise-distinct entry paths, when `setup()` succeeds,
`tree()` is strictly sorted (so duplicate-free) and contains exactly: the
workspace root (as the empty relative path), every added path, and every
intermediate ancestor directory implied by an added path — no other entry. -/
theorem tree_after_setup {l : List (RelPath × Node)} {fs : FS}
    (hnd : (storeKeys l).Nodup) (hok : setupFrom fsEmpty l = .ok fs) :
    (tree fs).Pairwise pathLt ∧
    ∀ p : RelPath, p ∈ tree fs ↔
      (p = [] ∨ p ∈ storeKeys l ∨ ∃ q ∈ storeKeys l, ∃ r, r ≠ [] ∧ p ++ r = q) := by
  have hsorted := setupFrom_sorted hok fsEmpty_sorted
  have htree := tree_eq_keys hsorted
  constructor
  · rw [htree]
    exact List.Pairwise.map Prod.fst (fun a b h => h) hsorted
  · intro p
    rw [htree, mem_keys_iff_lookup hsorted]
    rw [show fsLookup fs p = specLookup l p from setup_lookup_eq_specLookup hnd hok p]
    constructor
    · rintro ⟨n, hn⟩
      simp only [specLookup] at hn
      cases hl : fsLookup l p with
      | some n' =>
        exact Or.inr (Or.inl (mem_storeKeys.mpr ⟨n', mem_of_fsLookup hl⟩))
      | none =>
        simp only [hl] at hn
        by_cases hcond : p = [] ∨ (l.any (fun e => decide (p ∈ entryDirs e)) = true)
        · rcases hcond with hp | hany
          · exact Or.inl hp
          · obtain ⟨e, he, hdec⟩ := List.any_eq_true.mp hany
            obtain ⟨q, n'⟩ := e
            have hpd := of_decide_eq_true hdec
            cases n' with
            | some c =>
              by_cases hq : q = []
              · subst hq
                obtain ⟨r, hr⟩ := mem_inits_iff.mp hpd
                exact Or.inl (List.append_eq_nil.mp hr).1
              · obtain ⟨hpi, hpne⟩ := mem_inits_dropLast hq hpd
                obtain ⟨r, hr⟩ := mem_inits_iff.mp hpi
                refine Or.inr (Or.inr ⟨q, mem_storeKeys.mpr ⟨some c, he⟩, r, ?_, hr⟩)
                intro hrnil
                rw [hrnil, List.append_nil] at hr
                exact hpne hr
            | none =>
              obtain ⟨r, hr⟩ := mem_inits_iff.mp hpd
              cases r with
              | nil =>
                rw [List.append_nil] at hr
                exact Or.inr (Or.inl (hr ▸ mem_storeKeys.mpr ⟨none, he⟩))
              | cons a r' =>
                exact Or.inr (Or.inr ⟨q, mem_storeKeys.mpr ⟨none, he⟩,
                  a :: r', by simp, hr⟩)
        · rw [if_neg hcond] at hn
          exact Option.noConfusion hn
    · intro hp
      rcases hp with hp | hp | ⟨q, hq, r, hrne, heq⟩
      · subst hp
        cases hl : fsLookup l ([] : RelPath) with
        | some n => exact ⟨n, by simp [specLookup, hl]⟩
        | none => exact ⟨none, by simp [specLookup, hl]⟩
      · obtain ⟨n, hn⟩ := mem_storeKeys.mp hp
        exact ⟨n, by simp [specLookup, storeLookup_of_mem_nodup hnd hn]⟩
      · obtain ⟨n', hn'⟩ := mem_storeKeys.mp hq
        have hdirs : p ∈ entryDirs (q, n') := by
          cases n' with
          | some c =>
            exact mem_dropLast_inits (mem_inits_iff.mpr ⟨r, heq⟩)
              (append_ne_nil_ne hrne heq)
          | none => exact mem_inits_iff.mpr ⟨r, heq⟩
        have hany : l.any (fun e => decide (p ∈ entryDirs e)) = true :=
          List.any_eq_true.mpr ⟨(q, n'), hn', decide_eq_true hdirs⟩
        cases hl : fsLookup l p with
        | some n => exact ⟨n, by simp [specLookup, hl]⟩
        | none => exact ⟨none, by simp [specLookup, hl, hany]⟩

/-- C2: when the store's entry recorded at `P` is the file content `C` (the
last `add_file(P, C)` not overwritten) and materialization succeeds in any
iteration order, reading `P` back yields exactly `C`. -/
theorem read_file_roundtrip {e : IntegrationTestEnvironment}
    {l : List (RelPath × Node)} {fs : FS} {P : RelPath} {C : String}
    (hnd : (storeKeys e.entries).Nodup)
    (hlast : fsLookup e.entries P = some (some C))
    (hperm : l.Perm e.entries)
    (hok : setupFrom fsEmpty l = .ok fs) :
    IntegrationTestEnvironment.read_file fs P = .ok C := by
  have hndl : (storeKeys l).Nodup := ((hperm.map Prod.fst).nodup_iff).mpr hnd
  have hmem : (P, some C) ∈ l := hperm.mem_iff.mpr (mem_of_fsLookup hlast)
  have hE := setupFrom_holds hok fsEmpty_sorted hndl _ hmem
  have hfile : fsLookup fs P = some (some C) := hE.2 C rfl
  simp [IntegrationTestEnvironment.read_file, hfile]

/-- C3: `add_file(P, C)` then `add_dir(P)` leaves the store with a single
directory entry at `P` (last write wins), and after a successful `setup` in
any iteration order `P` is a directory on disk, not a file. -/
theorem add_dir_overwrites_add_file {e : IntegrationTestEnvironment}
    {P : RelPath} {C : String} {l : List (RelPath × Node)} {fs : FS}
    (hnd : (storeKeys e.entries).Nodup)
    (hperm : l.Perm (((e.add_file P C).add_dir P).entries))
    (hok : setupFrom fsEmpty l = .ok fs) :
    fsLookup (((e.add_file P C).add_dir P).entries) P = some none ∧
    fsLookup fs P = some none ∧ ∀ c, fsLookup fs P ≠ some (some c) := by
  have hstore : fsLookup (((e.add_file P C).add_dir P).entries) P = some none := by
    show fsLookup (IntegrationTestEnvironment.storeInsert
      (IntegrationTestEnvironment.storeInsert e.entries P (some C)) P none) P = some none
    rw [storeInsert_lookup, if_pos rfl]
  have hnd₁ : (storeKeys (((e.add_file P C).add_dir P).entries)).Nodup :=
    storeInsert_nodup (storeInsert_nodup hnd P (some C)) P none
  have hndl : (storeKeys l).Nodup := ((hperm.map Prod.fst).nodup_iff).mpr hnd₁
  have hmem : (P, (none : Node)) ∈ l := hperm.mem_iff.mpr (mem_of_fsLookup hstore)
  have hE := setupFrom_holds hok fsEmpty_sorted hndl _ hmem
  have hdir : fsLookup fs P = some none := hE.1 P (self_mem_inits P)
  refine ⟨hstore, hdir, fun c hc => ?_⟩
  rw [hdir] at hc
  exact Option.noConfusion (Option.some.inj hc)

/-- C4: running `setup` a second time over the state left by a successful
first run, with the store unchanged, succeeds and produces the identical
state, hence an identical `tree()`. -/
theorem setup_idempotent {l : List (RelPath × Node)} {fs : FS}
    (hnd : (storeKeys l).Nodup) (hok : setupFrom fsEmpty l = .ok fs) :
    ∃ fs₂, setupFrom fs l = .ok fs₂ ∧ tree fs₂ = tree fs := by
  have hs := setupFrom_sorted hok fsEmpty_sorted
  have hh := setupFrom_holds hok fsEmpty_sorted hnd
  exact ⟨fs, setupFrom_of_holds hs hh, rfl⟩

/-- C5: two successful materializations of permuted stores (any two
`HashMap` iteration orders of the same set of `add_file`/`add_dir` records)
produce the same on-disk state and the same `tree()`; moreover at the moment
any single entry's materialization step completes, every ancestor directory
of that entry exists — parents are created before the children inside them. -/
theorem setup_order_independent {l₁ l₂ : List (RelPath × Node)} {fs₁ fs₂ : FS}
    (hperm : l₁.Perm l₂) (hnd : (storeKeys l₁).Nodup)
    (h₁ : setupFrom fsEmpty l₁ = .ok fs₁) (h₂ : setupFrom fsEmpty l₂ = .ok fs₂) :
    fs₁ = fs₂ ∧ tree fs₁ = tree fs₂ ∧
    ∀ (fs fs' : FS) (e : RelPath × Node), setupStep fs e = .ok fs' →
      ∀ q ∈ e.1.dropLast.inits, fsLookup fs' q = some none := by
  have heq := setup_perm_eq hperm hnd h₁ h₂
  refine ⟨heq, by rw [heq], ?_⟩
  intro fs fs' e hstep q hq
  have hest := (setupStep_establishes hstep).1
  obtain ⟨p, n⟩ := e
  cases n with
  | some c => exact hest q hq
  | none =>
    refine hest q ?_
    by_cases hpe : p = []
    · subst hpe
      exact hq
    · exact (mem_inits_dropLast hpe hq).1

/-- C6: `set_exec_permission` returns an explicit result instead of
panicking: on an existing materialized file it succeeds and the file's mode
becomes `0o755` — executable by owner (bit 6), group (bit 3) and other
(bit 0) — and on a missing path it returns the failure value. -/
theorem set_exec_permission_result (fs : FS) (perms : RelPath → Nat)
    (P : RelPath) :
    (∀ c, fsLookup fs P = some (some c) →
      ∃ perms', IntegrationTestEnvironment.set_exec_permission fs perms P =
          .ok perms' ∧
        perms' P = 493 ∧ Nat.testBit (perms' P) 6 = true ∧
        Nat.testBit (perms' P) 3 = true ∧ Nat.testBit (perms' P) 0 = true) ∧
    (fsLookup fs P = none →
      IntegrationTestEnvironment.set_exec_permission fs perms P =
        .error "No such file or directory (os error 2)") := by
  constructor
  · intro c hc
    have hsome : (fsLookup fs P).isSome = true := by rw [hc]; rfl
    refine ⟨fun q => if q = P then 493 else perms q, ?_, ?_, ?_, ?_, ?_⟩
    · simp only [IntegrationTestEnvironment.set_exec_permission]
      rw [if_pos hsome]
    · show (if P = P then 493 else perms P) = 493
      rw [if_pos rfl]
    · show Nat.testBit (if P = P then 493 else perms P) 6 = true
      rw [if_pos rfl]
      decide
    · show Nat.testBit (if P = P then 493 else perms P) 3 = true
      rw [if_pos rfl]
      decide
    · show Nat.testBit (if P = P then 493 else perms P) 0 = true
      rw [if_pos rfl]
      decide
  · intro h
    simp only [IntegrationTestEnvironment.set_exec_permission]
    rw [if_neg (by rw [h]; simp)]

/-- C7: `read_file` returns the full text exactly when a regular file is at
the path, and otherwise fails fatally with the offending path embedded in
the message — there is no recoverable error value. -/
theorem read_file_error_contract (fs : FS) (P : RelPath) :
    (∀ C, IntegrationTestEnvironment.read_file fs P = .ok C ↔
      fsLookup fs P = some (some C)) ∧
    ((∀ C, fsLookup fs P ≠ some (some C)) →
      IntegrationTestEnvironment.read_file fs P =
        .error ("fail to read file " ++ pathStr P)) := by
  constructor
  · intro C
    constructor
    · intro h
      simp only [IntegrationTestEnvironment.read_file] at h
      cases hl : fsLookup fs P with
      | none => simp only [hl] at h; exact Except.noConfusion h
      | some n =>
        cases n with
        | none => simp only [hl] at h; exact Except.noConfusion h
        | some c =>
          simp only [hl] at h
          injection h with h
          subst h
          rfl
    · intro h
      simp [IntegrationTestEnvironment.read_file, h]
  · intro h
    simp only [IntegrationTestEnvironment.read_file]

/-- C8 (counterexample): two stores whose failing file entries have different
triggering paths surface the same fixed setup failure message,
"fail to create file" — so that message carries no triggering path. -/
theorem write_error_message_has_no_path :
    setupFrom fsEmpty [((["zz", "b"] : RelPath), (none : Node)),
        ((["zz"] : RelPath), (some "x" : Node))] = .error "fail to create file" ∧
    setupFrom fsEmpty [((["qq", "b"] : RelPath), (none : Node)),
        ((["qq"] : RelPath), (some "x" : Node))] = .error "fail to create file" :=
  ⟨rfl, rfl⟩

/-- C8 (amended): during `setup`, directory-creation failures are wrapped
with the path that triggered them (the entry path, or its parent for a file
entry) and "directory already exists" is treated as success — but a failed
file write surfaces as the fixed message "fail to create file", with no path
attached. -/
theorem setup_error_wrapping :
    (∀ (fs : FS) (e : RelPath × Node) (msg : String),
      setupStep fs e = .error msg →
      msg = "fail to create directory " ++ pathStr e.1 ∨
      msg = "fail to create directory " ++ pathStr e.1.dropLast ∨
      msg = "fail to create file") ∧
    (∀ (fs : FS) (q : RelPath), fsLookup fs q = some none →
      createDir1 fs q = some fs) := by
  constructor
  · intro fs e msg h
    obtain ⟨p, n⟩ := e
    cases n with
    | some c =>
      simp only [setupStep] at h
      cases hca : createAll fs p.dropLast with
      | none =>
        simp only [hca] at h
        injection h with h
        exact Or.inr (Or.inl h.symm)
      | some fs₁ =>
        simp only [hca] at h
        cases hw : writeAll fs₁ p c with
        | none =>
          simp only [hw] at h
          injection h with h
          exact Or.inr (Or.inr h.symm)
        | some fs₂ => simp only [hw] at h; exact Except.noConfusion h
    | none =>
      simp only [setupStep] at h
      cases hca : createAll fs p with
      | none =>
        simp only [hca] at h
        injection h with h
        exact Or.inl h.symm
      | some fs₁ => simp only [hca] at h; exact Except.noConfusion h
  · intro fs q hq
    simp [createDir1, hq]

/-- C9: `command` resolves the executable (fatally on failure), binds the
invocation's working directory to the workspace root, and passes the
(workspace root, invocation) pair through the stored customization hook;
the hook defaults to the identity, so a freshly created environment returns
the invocation unchanged apart from the working-directory binding. -/
theorem command_binds_workspace_and_hook
    (resolve : String → Option Command) (e : IntegrationTestEnvironment)
    (name : String) :
    (∀ c, resolve name = some c →
      IntegrationTestEnvironment.command resolve e name =
        .ok (e.cfg_command_callback e.path { c with cwd := some e.path })) ∧
    (∀ label root c, resolve name = some c →
      IntegrationTestEnvironment.command resolve
        (IntegrationTestEnvironment.new label root) name =
        .ok { c with cwd := some root }) ∧
    (resolve name = none →
      IntegrationTestEnvironment.command resolve e name =
        .error "called Option::unwrap on a None value") := by
  refine ⟨?_, ?_, ?_⟩
  · intro c hc
    simp [IntegrationTestEnvironment.command, hc]
  · intro label root c hc
    simp [IntegrationTestEnvironment.command, IntegrationTestEnvironment.new,
      IntegrationTestEnvironment.path, hc]
  · intro h
    simp [IntegrationTestEnvironment.command, h]

/-- C10: the join performed by `read_file`, `setup` and
`set_exec_permission` on their path arguments returns an absolute argument
unchanged — the operation then targets that absolute location outside the
workspace — while a relative argument is appended under the workspace root. -/
theorem join_absolute_path (root p : RPath) :
    (p.absolute = true → joinPath root p = p) ∧
    (p.absolute = false →
      joinPath root p = ⟨root.absolute, root.comps ++ p.comps⟩) := by
  constructor
  · intro h
    simp [joinPath, h]
  · intro h
    simp [joinPath, h]

/-! ### Concrete instances -/

theorem tree_after_setup_witness :
    (tree [([], none), (["d"], none), (["d", "f"], some "x")]).Pairwise pathLt ∧
    ((["d"] : RelPath) ∈ tree [([], none), (["d"], none), (["d", "f"], some "x")] ↔
      ((["d"] : RelPath) = [] ∨
        ["d"] ∈ storeKeys [((["d", "f"] : RelPath), (some "x" : Node))] ∨
        ∃ q ∈ storeKeys [((["d", "f"] : RelPath), (some "x" : Node))],
          ∃ r, r ≠ [] ∧ ["d"] ++ r = q)) :=
  ⟨(@tree_after_setup [(["d", "f"], some "x")]
      [([], none), (["d"], none), (["d", "f"], some "x")] (by decide) rfl).1,
    (@tree_after_setup [(["d", "f"], some "x")]
      [([], none), (["d"], none), (["d", "f"], some "x")] (by decide) rfl).2 ["d"]⟩

theorem read_file_roundtrip_witness :
    IntegrationTestEnvironment.read_file [([], none), (["file1"], some "test 1")]
      ["file1"] = .ok "test 1" :=
  @read_file_roundtrip
    ⟨"test", ⟨true, ["tmp"]⟩, [(["file1"], some "test 1")], fun _ c => c⟩
    [(["file1"], some "test 1")] [([], none), (["file1"], some "test 1")]
    ["file1"] "test 1" (by decide) rfl (List.Perm.refl _) rfl

theorem add_dir_overwrites_add_file_witness :
    fsLookup [((["p"] : RelPath), (none : Node))] ["p"] = some none ∧
    fsLookup [([], none), (["p"], none)] ["p"] = some none :=
  ⟨(@add_dir_overwrites_add_file ⟨"t", ⟨true, ["tmp"]⟩, [], fun _ c => c⟩
      ["p"] "x" [(["p"], none)] [([], none), (["p"], none)]
      (by decide) (List.Perm.refl _) rfl).1,
   (@add_dir_overwrites_add_file ⟨"t", ⟨true, ["tmp"]⟩, [], fun _ c => c⟩
      ["p"] "x" [(["p"], none)] [([], none), (["p"], none)]
      (by decide) (List.Perm.refl _) rfl).2.1⟩

theorem setup_idempotent_witness :
    ∃ fs₂, setupFrom [([], none), (["d"], none), (["d", "f"], some "x")]
        [((["d", "f"] : RelPath), (some "x" : Node))] = .ok fs₂ ∧
      tree fs₂ = tree [([], none), (["d"], none), (["d", "f"], some "x")] :=
  @setup_idempotent [(["d", "f"], some "x")]
    [([], none), (["d"], none), (["d", "f"], some "x")] (by decide) rfl

theorem setup_order_independent_witness :
    (([([], none), (["d"], none), (["d", "f"], some "x"), (["e"], none)] : FS) =
      [([], none), (["d"], none), (["d", "f"], some "x"), (["e"], none)]) ∧
    fsLookup [([], none), (["d"], none), (["d", "f"], some "x")] ["d"] =
      some none :=
  ⟨(@setup_order_independent
      [(["d", "f"], some "x"), (["e"], none)]
      [(["e"], none), (["d", "f"], some "x")]
      [([], none), (["d"], none), (["d", "f"], some "x"), (["e"], none)]
      [([], none), (["d"], none), (["d", "f"], some "x"), (["e"], none)]
      (List.Perm.swap (["e"], none) (["d", "f"], some "x") [])
      (by decide) rfl rfl).1,
   (@setup_order_independent
      [(["d", "f"], some "x"), (["e"], none)]
      [(["e"], none), (["d", "f"], some "x")]
      [([], none), (["d"], none), (["d", "f"], some "x"), (["e"], none)]
      [([], none), (["d"], none), (["d", "f"], some "x"), (["e"], none)]
      (List.Perm.swap (["e"], none) (["d", "f"], some "x") [])
      (by decide) rfl rfl).2.2 fsEmpty
      [([], none), (["d"], none), (["d", "f"], some "x")]
      (["d", "f"], some "x") rfl ["d"] (by decide)⟩

theorem set_exec_permission_result_witness :
    (∃ perms', IntegrationTestEnvironment.set_exec_permission
        [([], none), (["d"], some "x")] (fun _ => 420) ["d"] = .ok perms' ∧
      perms' ["d"] = 493 ∧ Nat.testBit (perms' ["d"]) 6 = true ∧
      Nat.testBit (perms' ["d"]) 3 = true ∧ Nat.testBit (perms' ["d"]) 0 = true) ∧
    IntegrationTestEnvironment.set_exec_permission [([], none)] (fun _ => 420)
      ["zz"] = .error "No such file or directory (os error 2)" :=
  ⟨(set_exec_permission_result [([], none), (["d"], some "x")] (fun _ => 420)
      ["d"]).1 "x" rfl,
   (set_exec_permission_result [([], none)] (fun _ => 420) ["zz"]).2 rfl⟩

theorem read_file_error_contract_witness :
    (IntegrationTestEnvironment.read_file [([], none), (["d"], some "x")] ["d"] =
        .ok "x" ↔
      fsLookup [([], none), (["d"], some "x")] ["d"] = some (some "x")) ∧
    IntegrationTestEnvironment.read_file [([], none)] ["zz"] =
      .error ("fail to read file " ++ pathStr ["zz"]) :=
  ⟨(read_file_error_contract [([], none), (["d"], some "x")] ["d"]).1 "x",
   (read_file_error_contract [([], none)] ["zz"]).2
     (fun _ h => Option.noConfusion h)⟩

theorem setup_error_wrapping_witness :
    ("fail to create file" =
        "fail to create directory " ++ pathStr (["zz"] : RelPath) ∨
      "fail to create file" =
        "fail to create directory " ++ pathStr (["zz"] : RelPath).dropLast ∨
      "fail to create file" = "fail to create file") ∧
    createDir1 fsEmpty [] = some fsEmpty :=
  ⟨setup_error_wrapping.1 [([], none), (["zz"], none)] (["zz"], some "x")
      "fail to create file" rfl,
   setup_error_wrapping.2 fsEmpty [] rfl⟩

theorem command_binds_workspace_and_hook_witness :
    IntegrationTestEnvironment.command
        (fun s => if s = "mybin" then some ⟨"target/debug/mybin", none, []⟩
          else none)
        (IntegrationTestEnvironment.new "t" ⟨true, ["tmp", "ws"]⟩) "mybin" =
      .ok ⟨"target/debug/mybin", some ⟨true, ["tmp", "ws"]⟩, []⟩ ∧
    IntegrationTestEnvironment.command
        (fun s => if s = "mybin" then some ⟨"target/debug/mybin", none, []⟩
          else none)
        (IntegrationTestEnvironment.new "t" ⟨true, ["tmp", "ws"]⟩) "other" =
      .error "called Option::unwrap on a None value" :=
  ⟨(command_binds_workspace_and_hook
      (fun s => if s = "mybin" then some ⟨"target/debug/mybin", none, []⟩
        else none)
      (IntegrationTestEnvironment.new "t" ⟨true, ["tmp", "ws"]⟩) "mybin").2.1
      "t" ⟨true, ["tmp", "ws"]⟩ ⟨"target/debug/mybin", none, []⟩ rfl,
   (command_binds_workspace_and_hook
      (fun s => if s = "mybin" then some ⟨"target/debug/mybin", none, []⟩
        else none)
      (IntegrationTestEnvironment.new "t" ⟨true, ["tmp", "ws"]⟩) "other").2.2 rfl⟩

theorem join_absolute_path_witness :
    joinPath ⟨true, ["tmp", "ws"]⟩ ⟨true, ["etc", "conf"]⟩ =
      ⟨true, ["etc", "conf"]⟩ ∧
    joinPath ⟨true, ["tmp", "ws"]⟩ ⟨false, ["sub", "file"]⟩ =
      ⟨true, ["tmp", "ws", "sub", "file"]⟩ :=
  ⟨(join_absolute_path ⟨true, ["tmp", "ws"]⟩ ⟨true, ["etc", "conf"]⟩).1 rfl,
   (join_absolute_path ⟨true, ["tmp", "ws"]⟩ ⟨false, ["sub", "file"]⟩).2 rfl⟩
